import Mathlib

/-!
Shallow embedding of the LinUCB contextual-bandit fusion core of the
spare-extension repository (class `LinUCB` in the source, plus the
feedback conversion in `popup.js` and the score assembly in the
background analysis path).

JavaScript numbers are modelled as real numbers; `Math.sqrt` is
`Real.sqrt`; a possibly-`null` module score is an `Option ℝ`
(`none` = null/undefined/NaN, i.e. "absent").  The JS value
`-Infinity`, used for the UCB of invalid actions, is modelled as `⊥`
in `WithBot ℝ`.  Matrices and vectors are lists of lists / lists of
reals, mirroring the JS arrays; out-of-range indexing is `getD _ 0`
(irrelevant for well-formed data, which is all the code ever builds).
-/

noncomputable section
open Classical

namespace SpareExt

abbrev Vec := List ℝ
abbrev Mat := List (List ℝ)

/-- Identity matrix of size n×n, as in the source's `createIdentityMatrix`. -/
def createIdentityMatrix (n : ℕ) : Mat :=
  (List.range n).map fun i => (List.range n).map fun j => if i = j then (1 : ℝ) else 0

/-- Matrix–vector product, as in the source's `matVecMul`
(row i ↦ Σ_{j < v.length} M[i][j]·v[j]). -/
def matVecMul (M : Mat) (v : Vec) : Vec :=
  M.map fun row => ((List.range v.length).map fun j => row.getD j 0 * v.getD j 0).sum

/-- Dot product, as in the source's `dotProduct`
(Σ_{i < v1.length} v1[i]·v2[i]). -/
def dotProduct (v1 v2 : Vec) : ℝ :=
  ((List.range v1.length).map fun i => v1.getD i 0 * v2.getD i 0).sum

/-- Outer product v·vᵀ, as in the source's `outerProduct`. -/
def outerProduct (v : Vec) : Mat :=
  (List.range v.length).map fun i =>
    (List.range v.length).map fun j => v.getD i 0 * v.getD j 0

/-- Entrywise matrix sum, as in the source's `matAdd`
(dimensions taken from the first argument). -/
def matAdd (M1 M2 : Mat) : Mat :=
  (List.range M1.length).map fun i =>
    (List.range (M1.getD i []).length).map fun j =>
      (M1.getD i []).getD j 0 + (M2.getD i []).getD j 0

/-- The fixed action set of the `LinUCB` constructor: five weight
triples over [onPage, visual, offPage]. -/
def actions : List (List ℝ) :=
  [[0.6, 0.2, 0.2],
   [0.2, 0.6, 0.2],
   [0.2, 0.2, 0.6],
   [0.5, 0.3, 0.2],
   [0.333, 0.333, 0.333]]

/-- The three optional module scores `[onPage, visual, offPage]` passed
to the bandit; `none` models null/undefined/NaN. -/
structure ModuleScores where
  onPage : Option ℝ
  visual : Option ℝ
  offPage : Option ℝ

/-- Index access into the score triple, as the JS code indexes
`module_scores[i]` for i = 0,1,2. -/
def ModuleScores.get (ms : ModuleScores) : ℕ → Option ℝ
  | 0 => ms.onPage
  | 1 => ms.visual
  | 2 => ms.offPage
  | _ => none

/-- The `valid_scores` list of `getContext`: the actually-present score
values, in slot order. -/
def validScores (ms : ModuleScores) : List ℝ :=
  [ms.onPage, ms.visual, ms.offPage].filterMap id

/-- The source's `getContext`: substitute 0.5 for absent slots, append
the standard deviation of the present values; default context
[0.5, 0.5, 0.5, 0] when nothing is present. -/
def getContext (ms : ModuleScores) : Vec :=
  let vs := validScores ms
  if vs.length = 0 then [0.5, 0.5, 0.5, 0]
  else
    let mean := vs.sum / (vs.length : ℝ)
    let variance := (vs.map fun s => (s - mean) ^ 2).sum / (vs.length : ℝ)
    [ms.onPage.getD 0.5, ms.visual.getD 0.5, ms.offPage.getD 0.5, Real.sqrt variance]

/-- The source's `isActionValid`: an action is invalid iff some module
in slots 0..2 is absent while the action puts weight ≥ 0.5 on it. -/
def isActionValid (a : ℕ) (ms : ModuleScores) : Bool :=
  let weights := actions.getD a []
  ([0, 1, 2] : List ℕ).all fun i =>
    !((ms.get i).isNone && decide ((weights.getD i 0) ≥ 0.5))

/-- The pivot-search loop of `matInverse`: the first row index in
`i..n-1` whose column-i entry has (strictly) largest magnitude. -/
def findMaxRow (aug : Mat) (i : ℕ) : ℕ :=
  (List.range' (i + 1) (aug.length - (i + 1))).foldl
    (fun maxRow k =>
      if |(aug.getD k []).getD i 0| > |(aug.getD maxRow []).getD i 0| then k else maxRow) i

/-- Row swap `[augmented[i], augmented[maxRow]] = [augmented[maxRow], augmented[i]]`. -/
def swapRows (M : Mat) (i j : ℕ) : Mat :=
  (List.range M.length).map fun k =>
    if k = i then M.getD j [] else if k = j then M.getD i [] else M.getD k []

/-- One iteration of the Gauss–Jordan loop of `matInverse` at column `i`:
pivot search, swap, singularity bail-out (`none` when the pivot's
magnitude is below 1e-10), pivot normalisation, column elimination. -/
def elimStep (aug : Mat) (i : ℕ) : Option Mat :=
  let maxRow := findMaxRow aug i
  let aug1 := swapRows aug i maxRow
  let pivot := (aug1.getD i []).getD i 0
  if |pivot| < 1e-10 then none
  else
    let aug2 := aug1.mapIdx fun k row => if k = i then row.map (fun x => x / pivot) else row
    let pivotRow := aug2.getD i []
    some (aug2.mapIdx fun k row =>
      if k = i then row
      else row.mapIdx fun j x => x - row.getD i 0 * pivotRow.getD j 0)

/-- The full elimination loop over the given column indices; `none`
as soon as one step detects a near-singular pivot. -/
def elimAll (aug : Mat) : List ℕ → Option Mat
  | [] => some aug
  | i :: rest =>
    match elimStep aug i with
    | none => none
    | some aug2 => elimAll aug2 rest

/-- The augmented matrix [M | I] built at the top of `matInverse`. -/
def augment (M : Mat) : Mat :=
  M.mapIdx fun i row => row ++ (List.range M.length).map fun j => if i = j then (1 : ℝ) else 0

/-- The source's `matInverse`: Gauss–Jordan elimination with partial
pivoting; returns the identity matrix as a fallback whenever a pivot's
magnitude falls below 1e-10 (instead of throwing). -/
def matInverse (M : Mat) : Mat :=
  let n := M.length
  match elimAll (augment M) (List.range n) with
  | none => createIdentityMatrix n
  | some aug => aug.map fun row => row.drop n

/-- The mutable state of a `LinUCB` instance: constructor parameters
plus the per-action design matrices `A`, response vectors `b`, and the
trial counter. -/
structure LinUCB where
  nActions : ℕ
  nFeatures : ℕ
  alpha : ℝ
  A : List Mat
  b : List Vec
  totalTrials : ℕ

/-- The `LinUCB` constructor: per-action identity matrices and zero
vectors, zero trials. -/
def LinUCB.init (nActions nFeatures : ℕ) (alpha : ℝ) : LinUCB :=
  ⟨nActions, nFeatures, alpha,
   (List.range nActions).map fun _ => createIdentityMatrix nFeatures,
   (List.range nActions).map fun _ => List.replicate nFeatures 0,
   0⟩

/-- A fresh model as every caller constructs it: `new LinUCB(5, 4, 1.0)`. -/
def freshModel : LinUCB := LinUCB.init 5 4 1

/-- One entry of the `ucb_values` diagnostics list built by
`selectAction`; `⊥` models the JS `-Infinity`. -/
structure UCBValue where
  action : ℕ
  predictedReward : WithBot ℝ
  uncertainty : ℝ
  ucb : WithBot ℝ
  invalid : Bool

/-- The per-action body of the `selectAction` loop: `⊥` diagnostics
for invalid actions, otherwise θ = A⁻¹b, predicted reward θ·ctx,
uncertainty √(ctx·A⁻¹ctx), and UCB = reward + α·uncertainty. -/
def evalAction (st : LinUCB) (ms : ModuleScores) (ctx : Vec) (a : ℕ) : UCBValue :=
  if isActionValid a ms then
    let Ainv := matInverse (st.A.getD a [])
    let theta := matVecMul Ainv (st.b.getD a [])
    let pr := dotProduct theta ctx
    let unc := Real.sqrt (dotProduct ctx (matVecMul Ainv ctx))
    ⟨a, (pr : WithBot ℝ), unc, ((pr + st.alpha * unc : ℝ) : WithBot ℝ), false⟩
  else
    ⟨a, ⊥, 0, ⊥, true⟩

/-- The JS `reduce((max, curr) => curr.ucb > max.ucb ? curr : max)`
over the tail of the diagnostics list, seeded with its head. -/
def reduceBest : List UCBValue → UCBValue → UCBValue
  | [], best => best
  | c :: rest, best => reduceBest rest (if best.ucb < c.ucb then c else best)

/-- Result record of `selectAction`. -/
structure SelectResult where
  action : ℕ
  weights : List ℝ
  ucbValues : List UCBValue
  context : Vec

/-- The source's `selectAction`: build the context, score every action,
take the arg-max of UCB with ties broken toward the lowest index.
(On an empty action range the JS `reduce` would throw; every caller
uses `nActions = 5`, and the `[]` branch below is unreachable then.) -/
def selectAction (st : LinUCB) (ms : ModuleScores) : SelectResult :=
  let ctx := getContext ms
  let ucbs := (List.range st.nActions).map fun a => evalAction st ms ctx a
  let best :=
    match ucbs with
    | [] => UCBValue.mk 0 ⊥ 0 ⊥ true
    | h :: t => reduceBest t h
  ⟨best.action, actions.getD best.action [], ucbs, ctx⟩

/-- Result record of `predict`. -/
structure PredictResult where
  score : ℝ
  action : ℕ
  weights : List ℝ
  ucbValues : List UCBValue
  context : Vec

/-- The source's `predict`: select an action, then fuse ONLY the
non-null module scores with the selected weights, normalising by the
weight mass actually used; 0.5 when every module is null. -/
def predict (st : LinUCB) (ms : ModuleScores) : PredictResult :=
  let r := selectAction st ms
  let acc :=
    ([0, 1, 2] : List ℕ).foldl
      (fun acc i =>
        match ms.get i with
        | some x => (acc.1 + r.weights.getD i 0 * x, acc.2 + r.weights.getD i 0)
        | none => acc)
      ((0 : ℝ), (0 : ℝ))
  let score := if acc.2 > 0 then acc.1 / acc.2 else 0.5
  ⟨score, r.action, r.weights, r.ucbValues, r.context⟩

/-- The source's `update`: add the context's outer product to the
chosen action's design matrix, add reward·context to its response
vector (the JS loop mutates exactly the first `n_features` entries in
place; rows are always exactly `n_features` long, so rebuilding the
row over those indices is the same), and bump the trial counter. -/
def LinUCB.update (st : LinUCB) (action : ℕ) (ctx : Vec) (reward : ℝ) : LinUCB :=
  { st with
    A := st.A.set action (matAdd (st.A.getD action []) (outerProduct ctx))
    b := st.b.set action
      ((List.range st.nFeatures).map fun i =>
        (st.b.getD action []).getD i 0 + reward * ctx.getD i 0)
    totalTrials := st.totalTrials + 1 }

/-- The feedback-to-reward conversion of `submitFeedback` in `popup.js`
(and the same formula in `processUserFeedback`): label 1 = PHISHING ↦
the shown score, label 0 = SAFE ↦ one minus the shown score. -/
def toReward (label : ℕ) (shownScore : ℝ) : ℝ :=
  if label = 1 then shownScore else 1 - shownScore

/-- The source's `processUserFeedback` (persistence aside): predict,
convert the label to a continuous reward, update with the recorded
action and context; returns the new state and the reward. -/
def processUserFeedback (st : LinUCB) (ms : ModuleScores) (label : ℕ) : LinUCB × ℝ :=
  let p := predict st ms
  let reward := toReward label p.score
  (st.update p.action p.context reward, reward)

/-- The score triple assembled by `performFullAnalysis` in the
background path: an absent visual or offPage score is replaced by the
number 0 before calling `predict`. -/
def analysisScores (onPageScore : ℝ) (visualScore offPageScore : Option ℝ) : ModuleScores :=
  ⟨some onPageScore, some (visualScore.getD 0), some (offPageScore.getD 0)⟩

/-- Indices (in 0..2) of the actually-present module scores. -/
def presentIdx (ms : ModuleScores) : List ℕ :=
  ([0, 1, 2] : List ℕ).filter fun i => (ms.get i).isSome

/-- Spec-side numerator: Σ weight_i · signal_i over present signals. -/
def weightedNum (w : List ℝ) (ms : ModuleScores) : ℝ :=
  ((presentIdx ms).map fun i => w.getD i 0 * (ms.get i).getD 0).sum

/-- Spec-side denominator: Σ weight_i over present signals. -/
def weightedDen (w : List ℝ) (ms : ModuleScores) : ℝ :=
  ((presentIdx ms).map fun i => w.getD i 0).sum

/-- Spec-side definition, following the spec's wording: the population
standard deviation of a list (mean, then square root of the mean
squared deviation); compared against the fourth slot `getContext`
actually computes. -/
def popStdDev (l : List ℝ) : ℝ :=
  Real.sqrt ((l.map fun x => (x - l.sum / (l.length : ℝ)) ^ 2).sum / (l.length : ℝ))

/-- Scenario input: onPage = 0.9, visual and offPage absent. -/
def ms09 : ModuleScores := ⟨some 0.9, none, none⟩

/-- Scenario input: all three module scores absent. -/
def msAllNone : ModuleScores := ⟨none, none, none⟩

/-- A concrete (exactly singular) 4×4 matrix. -/
def zeroMat4 : Mat := [[0, 0, 0, 0], [0, 0, 0, 0], [0, 0, 0, 0], [0, 0, 0, 0]]

/-! ### Helper lemmas -/

lemma getD_range_map {α : Type _} (f : ℕ → α) (n i : ℕ) (d : α) (hi : i < n) :
    ((List.range n).map f).getD i d = f i := by
  rw [List.getD_eq_getElem _ _ (by simpa using hi)]
  simp

lemma evalAction_action (st : LinUCB) (ms : ModuleScores) (ctx : Vec) (a : ℕ) :
    (evalAction st ms ctx a).action = a := by
  unfold evalAction
  split <;> rfl

lemma reduceBest_mem (l : List UCBValue) (b : UCBValue) : reduceBest l b ∈ b :: l := by
  induction l generalizing b with
  | nil => simp [reduceBest]
  | cons c rest ih =>
    have h := ih (if b.ucb < c.ucb then c else b)
    rcases List.mem_cons.mp h with h1 | h1
    · rw [reduceBest, h1]
      split <;> simp
    · simp [reduceBest, List.mem_cons.mpr (Or.inr (List.mem_cons.mpr (Or.inr h1)))]

lemma reduceBest_le (l : List UCBValue) (b : UCBValue) :
    ∀ c ∈ b :: l, c.ucb ≤ (reduceBest l b).ucb := by
  induction l generalizing b with
  | nil => intro c hc; rw [List.mem_singleton.mp hc]; exact le_refl _
  | cons x rest ih =>
    intro c hc
    rw [reduceBest]
    have hy : b.ucb ≤ (if b.ucb < x.ucb then x else b).ucb ∧
        x.ucb ≤ (if b.ucb < x.ucb then x else b).ucb := by
      by_cases hbx : b.ucb < x.ucb
      · rw [if_pos hbx]; exact ⟨le_of_lt hbx, le_refl _⟩
      · rw [if_neg hbx]; exact ⟨le_refl _, le_of_not_lt hbx⟩
    have hself := ih (if b.ucb < x.ucb then x else b) _
      (List.mem_cons_self (if b.ucb < x.ucb then x else b) rest)
    rcases List.mem_cons.mp hc with h1 | h1
    · rw [h1]; exact le_trans hy.1 hself
    · rcases List.mem_cons.mp h1 with h2 | h2
      · rw [h2]; exact le_trans hy.2 hself
      · exact ih _ c (List.mem_cons.mpr (Or.inr h2))

lemma isActionValid_true_iff (a : ℕ) (ms : ModuleScores) :
    isActionValid a ms = true ↔
      ∀ i, i < 3 → ms.get i = none → (actions.getD a []).getD i 0 < 0.5 := by
  simp only [isActionValid, List.all_eq_true, List.mem_cons, List.not_mem_nil, or_false,
    Bool.not_eq_true', Bool.and_eq_false_iff, Option.isNone_eq_false_iff,
    decide_eq_false_iff_not, not_le, Option.isSome_iff_ne_none]
  constructor
  · intro h i hi hnone
    have hmem : i = 0 ∨ i = 1 ∨ i = 2 := by omega
    rcases h i hmem with h1 | h1
    · exact absurd hnone h1
    · exact h1
  · intro h i hmem
    by_cases hnone : ms.get i = none
    · exact Or.inr (h i (by rcases hmem with h | h | h <;> omega) hnone)
    · exact Or.inl hnone

lemma isActionValid_false_iff (a : ℕ) (ms : ModuleScores) :
    isActionValid a ms = false ↔
      ∃ i, i < 3 ∧ ms.get i = none ∧ 0.5 ≤ (actions.getD a []).getD i 0 := by
  rw [← Bool.not_eq_true, isActionValid_true_iff]
  push_neg
  constructor
  · rintro ⟨i, hi, hnone, hw⟩
    exact ⟨i, hi, hnone, hw⟩
  · rintro ⟨i, hi, hnone, hw⟩
    exact ⟨i, hi, hnone, hw⟩

lemma actions_getD_pos (a i : ℕ) (ha : a < 5) (hi : i < 3) :
    0 < (actions.getD a []).getD i 0 := by
  interval_cases a <;> interval_cases i <;> norm_num [actions]

lemma balanced_valid (ms : ModuleScores) : isActionValid 4 ms = true := by
  rw [isActionValid_true_iff]
  intro i hi _
  interval_cases i <;> norm_num [actions]

lemma evalAction_valid_ucb (st : LinUCB) (ms : ModuleScores) (ctx : Vec) (a : ℕ)
    (h : isActionValid a ms = true) :
    ∃ v : ℝ, (evalAction st ms ctx a).ucb = (v : WithBot ℝ) := by
  unfold evalAction
  rw [if_pos h]
  exact ⟨_, rfl⟩

lemma evalAction_invalid (st : LinUCB) (ms : ModuleScores) (ctx : Vec) (a : ℕ)
    (h : isActionValid a ms = false) :
    (evalAction st ms ctx a).ucb = ⊥ := by
  unfold evalAction
  rw [if_neg (by rw [h]; exact Bool.false_ne_true)]

lemma selectAction_eq (st : LinUCB) (ms : ModuleScores) (h5 : st.nActions = 5) :
    selectAction st ms =
      ⟨(reduceBest
          [evalAction st ms (getContext ms) 1, evalAction st ms (getContext ms) 2,
           evalAction st ms (getContext ms) 3, evalAction st ms (getContext ms) 4]
          (evalAction st ms (getContext ms) 0)).action,
        actions.getD
          (reduceBest
            [evalAction st ms (getContext ms) 1, evalAction st ms (getContext ms) 2,
             evalAction st ms (getContext ms) 3, evalAction st ms (getContext ms) 4]
            (evalAction st ms (getContext ms) 0)).action [],
        [evalAction st ms (getContext ms) 0, evalAction st ms (getContext ms) 1,
         evalAction st ms (getContext ms) 2, evalAction st ms (getContext ms) 3,
         evalAction st ms (getContext ms) 4],
        getContext ms⟩ := by
  have hr : List.range 5 = [0, 1, 2, 3, 4] := by decide
  simp only [selectAction, h5, hr, List.map_cons, List.map_nil]

lemma selectAction_spec (st : LinUCB) (ms : ModuleScores) (h5 : st.nActions = 5) :
    (selectAction st ms).action < 5
    ∧ isActionValid (selectAction st ms).action ms = true
    ∧ (selectAction st ms).weights = actions.getD (selectAction st ms).action []
    ∧ ∀ rec ∈ (selectAction st ms).ucbValues,
        rec = evalAction st ms (getContext ms) rec.action := by
  rw [selectAction_eq st ms h5]
  set f := evalAction st ms (getContext ms) with hf
  set best := reduceBest [f 1, f 2, f 3, f 4] (f 0) with hbest
  have hmem : best ∈ (f 0) :: [f 1, f 2, f 3, f 4] := reduceBest_mem _ _
  have hcases : best = f 0 ∨ best = f 1 ∨ best = f 2 ∨ best = f 3 ∨ best = f 4 := by
    simpa using hmem
  have haction : ∃ a, a < 5 ∧ best = f a := by
    rcases hcases with h | h | h | h | h
    · exact ⟨0, by omega, h⟩
    · exact ⟨1, by omega, h⟩
    · exact ⟨2, by omega, h⟩
    · exact ⟨3, by omega, h⟩
    · exact ⟨4, by omega, h⟩
  obtain ⟨a, ha5, hba⟩ := haction
  have hact : best.action = a := by rw [hba, hf]; exact evalAction_action _ _ _ _
  have hvalid : isActionValid best.action ms = true := by
    by_contra hcon
    have hfalse : isActionValid best.action ms = false := by
      cases hb : isActionValid best.action ms
      · rfl
      · exact absurd hb hcon
    have hbot : best.ucb = ⊥ := by
      rw [hact] at hfalse
      rw [hba, hf]
      exact evalAction_invalid st ms (getContext ms) a hfalse
    obtain ⟨v, hv⟩ := evalAction_valid_ucb st ms (getContext ms) 4 (balanced_valid ms)
    have hle : (f 4).ucb ≤ best.ucb := reduceBest_le _ _ (f 4) (by simp)
    rw [hbot, hf] at hle
    rw [hv] at hle
    exact WithBot.not_coe_le_bot v hle
  refine ⟨by rw [hact]; exact ha5, hvalid, rfl, ?_⟩
  intro rec hrec
  have hrcases : rec = f 0 ∨ rec = f 1 ∨ rec = f 2 ∨ rec = f 3 ∨ rec = f 4 := by
    simpa using hrec
  rcases hrcases with h | h | h | h | h <;>
    rw [h, hf] <;> rw [evalAction_action]

lemma fuse_foldl (w : List ℝ) (ms : ModuleScores) :
    (([0, 1, 2] : List ℕ).foldl
      (fun acc i =>
        match ms.get i with
        | some x => (acc.1 + w.getD i 0 * x, acc.2 + w.getD i 0)
        | none => acc)
      ((0 : ℝ), (0 : ℝ)))
    = (weightedNum w ms, weightedDen w ms) := by
  rcases ms with ⟨o0, o1, o2⟩
  cases o0 <;> cases o1 <;> cases o2
  all_goals simp [weightedNum, weightedDen, presentIdx, ModuleScores.get, List.foldl]
  all_goals constructor <;> ring

lemma predict_eq (st : LinUCB) (ms : ModuleScores) :
    predict st ms =
      ⟨if weightedDen (selectAction st ms).weights ms > 0
          then weightedNum (selectAction st ms).weights ms /
            weightedDen (selectAction st ms).weights ms
          else 0.5,
        (selectAction st ms).action, (selectAction st ms).weights,
        (selectAction st ms).ucbValues, (selectAction st ms).context⟩ := by
  simp only [predict]
  rw [fuse_foldl]

lemma weightedDen_pos (a : ℕ) (ha : a < 5) (ms : ModuleScores)
    (hne : presentIdx ms ≠ []) : 0 < weightedDen (actions.getD a []) ms := by
  unfold weightedDen
  apply List.sum_pos
  · intro x hx
    obtain ⟨i, hi, rfl⟩ := List.mem_map.mp hx
    have hi3 : i < 3 := by
      have hmem := (List.mem_filter.mp hi).1
      simp at hmem
      omega
    exact actions_getD_pos a i ha hi3
  · simpa using hne

lemma presentIdx_empty_den (w : List ℝ) (ms : ModuleScores) (h : presentIdx ms = []) :
    weightedDen w ms = 0 := by
  unfold weightedDen
  rw [h]
  simp

lemma predict_score (st : LinUCB) (ms : ModuleScores) (h5 : st.nActions = 5) :
    (presentIdx ms ≠ [] →
      (predict st ms).score =
        weightedNum (predict st ms).weights ms / weightedDen (predict st ms).weights ms)
    ∧ (presentIdx ms = [] → (predict st ms).score = 0.5) := by
  have hsel := selectAction_spec st ms h5
  have hpe := predict_eq st ms
  constructor
  · intro hne
    have hpos : 0 < weightedDen (selectAction st ms).weights ms := by
      rw [hsel.2.2.1]
      exact weightedDen_pos _ hsel.1 ms hne
    rw [hpe]
    simp only [gt_iff_lt]
    rw [if_pos hpos]
  · intro hempty
    have hz : weightedDen (selectAction st ms).weights ms = 0 :=
      presentIdx_empty_den _ ms hempty
    rw [hpe]
    simp [hz]

/-! ### Claim theorems -/

/-- C1: for every model state (with the five-action configuration every
caller uses) and every triple of optional signal scores, the fused
score returned by `predict` equals the sum over present signals of the
selected action's weight times the signal, divided by the sum of the
selected action's weights over present signals — a quotient that
ranges only over present indices, so the 0.5 placeholder never enters
it — and equals exactly 0.5 when no signal is present. -/
theorem claim1_predict_weighted_average (st : LinUCB) (ms : ModuleScores)
    (h5 : st.nActions = 5) :
    (presentIdx ms ≠ [] →
      (predict st ms).score =
        weightedNum (predict st ms).weights ms / weightedDen (predict st ms).weights ms)
    ∧ (presentIdx ms = [] → (predict st ms).score = 0.5) :=
  predict_score st ms h5

/-- Witness for C1 at a fresh model and the input (0.9, absent, absent). -/
theorem claim1_witness :
    (predict freshModel ms09).score =
      weightedNum (predict freshModel ms09).weights ms09 /
        weightedDen (predict freshModel ms09).weights ms09 :=
  (claim1_predict_weighted_average freshModel ms09 rfl).1
    (by simp [presentIdx, ms09, ModuleScores.get])

/-- C7: the feedback-to-reward conversion maps PHISHING (label 1) to
the shown score and SAFE (label 0) to one minus the shown score, so
the two rewards always sum to exactly 1 — both for the raw conversion
and through `processUserFeedback`. -/
theorem claim7_reward_symmetry :
    (∀ s : ℝ, toReward 1 s + toReward 0 s = 1)
    ∧ ∀ (st : LinUCB) (ms : ModuleScores),
        (processUserFeedback st ms 1).2 + (processUserFeedback st ms 0).2 = 1 := by
  constructor
  · intro s
    simp [toReward]
  · intro st ms
    simp [processUserFeedback, toReward]

/-- C9 counterexample: the Balanced action's weights are 0.333 each,
so its triple sums to 0.999, not 1 — refuting the claim that every
triple of the action set sums exactly to 1 (and that Balanced is one
third each). -/
theorem claim9_counterexample : (actions.getD 4 []).sum ≠ 1 := by
  norm_num [actions]

/-- C9 amended: the fixed ordered action set consists of exactly the
five triples ML-heavy (0.6, 0.2, 0.2), Visual-heavy (0.2, 0.6, 0.2),
OffPage-heavy (0.2, 0.2, 0.6), ML+Visual blend (0.5, 0.3, 0.2), and
Balanced (0.333 each); the first four triples sum exactly to 1 while
the Balanced triple sums to 0.999. -/
theorem claim9_amended :
    actions = [[0.6, 0.2, 0.2], [0.2, 0.6, 0.2], [0.2, 0.2, 0.6],
               [0.5, 0.3, 0.2], [0.333, 0.333, 0.333]]
    ∧ (actions.getD 0 []).sum = 1
    ∧ (actions.getD 1 []).sum = 1
    ∧ (actions.getD 2 []).sum = 1
    ∧ (actions.getD 3 []).sum = 1
    ∧ (actions.getD 4 []).sum = 0.999 := by
  refine ⟨rfl, ?_, ?_, ?_, ?_, ?_⟩ <;> norm_num [actions]

/-- C5: `getContext` returns the fixed default [0.5, 0.5, 0.5, 0] when
all three signals are absent; otherwise it keeps present signals as-is,
substitutes 0.5 for absent ones, and appends the population standard
deviation of only the present values, which is 0 when exactly one
signal is present. -/
theorem claim5_getContext (ms : ModuleScores) :
    (validScores ms = [] → getContext ms = [0.5, 0.5, 0.5, 0])
    ∧ (validScores ms ≠ [] →
        getContext ms =
          [ms.onPage.getD 0.5, ms.visual.getD 0.5, ms.offPage.getD 0.5,
           popStdDev (validScores ms)])
    ∧ ((validScores ms).length = 1 → (getContext ms).getD 3 0 = 0) := by
  refine ⟨?_, ?_, ?_⟩
  · intro h
    simp only [getContext]
    rw [if_pos (by rw [h]; rfl)]
  · intro h
    simp only [getContext]
    rw [if_neg (by simpa using h)]
    simp only [popStdDev]
  · intro h1
    obtain ⟨x, hx⟩ := List.length_eq_one.mp h1
    simp only [getContext]
    rw [if_neg (by rw [h1]; omega)]
    rw [hx]
    norm_num

/-- Witness for C5: a single present value (0.7) yields disagreement 0. -/
theorem claim5_witness : (getContext ⟨some 0.7, none, none⟩).getD 3 0 = 0 :=
  (claim5_getContext ⟨some 0.7, none, none⟩).2.2 rfl

/-- C2: any action that puts weight ≥ 0.5 on an absent signal gets the
UCB value ⊥ (the JS −Infinity) in the diagnostics and is never the
selected action; in particular, whenever onPage is absent the ML-heavy
action (index 0, weight 0.6 on onPage) is never selected. -/
theorem claim2_validity_filter (st : LinUCB) (ms : ModuleScores) (a : ℕ)
    (h5 : st.nActions = 5)
    (hinv : ∃ i, i < 3 ∧ ms.get i = none ∧ 0.5 ≤ (actions.getD a []).getD i 0) :
    (∀ rec ∈ (selectAction st ms).ucbValues, rec.action = a → rec.ucb = ⊥)
    ∧ (selectAction st ms).action ≠ a
    ∧ (ms.onPage = none → (selectAction st ms).action ≠ 0) := by
  have hspec := selectAction_spec st ms h5
  have hnever : ∀ k, isActionValid k ms = false → (selectAction st ms).action ≠ k := by
    intro k hk hcon
    have hv := hspec.2.1
    rw [hcon, hk] at hv
    exact Bool.false_ne_true hv
  have hfalse : isActionValid a ms = false := (isActionValid_false_iff a ms).mpr hinv
  refine ⟨?_, hnever a hfalse, ?_⟩
  · intro rec hrec hra
    have heq := hspec.2.2.2 rec hrec
    rw [heq, hra]
    exact evalAction_invalid st ms (getContext ms) a hfalse
  · intro h0
    have hf0 : isActionValid 0 ms = false :=
      (isActionValid_false_iff 0 ms).mpr ⟨0, by omega, h0, by norm_num [actions]⟩
    exact hnever 0 hf0

/-- Witness for C2: onPage absent, visual = offPage = 0.5, fresh model —
the ML-heavy action (index 0, weight 0.6 on the absent onPage) is not
the selected action. -/
theorem claim2_witness :
    (selectAction freshModel ⟨none, some 0.5, some 0.5⟩).action ≠ 0 :=
  (claim2_validity_filter freshModel ⟨none, some 0.5, some 0.5⟩ 0 rfl
    ⟨0, by omega, rfl, by norm_num [actions]⟩).2.1

/-- C3 counterexample: on the input (onPage = 0.9, visual and offPage
absent) the Visual-heavy action (index 1) is INVALID (it weights 0.6
on the absent visual signal) and the ML-heavy action (index 0) is
VALID — the opposite of the claimed valid set {Visual-heavy,
OffPage-heavy, Balanced}. -/
theorem claim3_counterexample :
    isActionValid 1 ms09 = false ∧ isActionValid 0 ms09 = true := by
  constructor
  · rw [isActionValid_false_iff]
    exact ⟨1, by omega, rfl, by norm_num [actions]⟩
  · rw [isActionValid_true_iff]
    intro i hi hnone
    interval_cases i
    · simp [ms09, ModuleScores.get] at hnone
    · norm_num [actions]
    · norm_num [actions]

/-- C3 amended: for the input onPage = 0.9 with visual and offPage
absent, exactly the actions that put weight below 0.5 on each absent
signal are valid — ML-heavy, ML+Visual blend, and Balanced (indices
0, 3, 4), while Visual-heavy and OffPage-heavy are invalid — and the
fused score of `predict` on a fresh model equals exactly 0.9. -/
theorem claim3_amended :
    isActionValid 0 ms09 = true ∧ isActionValid 1 ms09 = false
    ∧ isActionValid 2 ms09 = false ∧ isActionValid 3 ms09 = true
    ∧ isActionValid 4 ms09 = true
    ∧ (predict freshModel ms09).score = 0.9 := by
  have hval : ∀ a, a < 5 → (∀ i, i < 3 → ms09.get i = none →
      (actions.getD a []).getD i 0 < 0.5) → isActionValid a ms09 = true := by
    intro a _ h
    rw [isActionValid_true_iff]
    exact h
  refine ⟨?_, ?_, ?_, ?_, ?_, ?_⟩
  · refine hval 0 (by omega) ?_
    intro i hi hnone
    interval_cases i
    · simp [ms09, ModuleScores.get] at hnone
    · norm_num [actions]
    · norm_num [actions]
  · rw [isActionValid_false_iff]
    exact ⟨1, by omega, rfl, by norm_num [actions]⟩
  · rw [isActionValid_false_iff]
    exact ⟨2, by omega, rfl, by norm_num [actions]⟩
  · refine hval 3 (by omega) ?_
    intro i hi hnone
    interval_cases i
    · simp [ms09, ModuleScores.get] at hnone
    · norm_num [actions]
    · norm_num [actions]
  · exact balanced_valid ms09
  · have hpi : presentIdx ms09 = [0] := by
      simp [presentIdx, ms09, ModuleScores.get]
    have hs := (predict_score freshModel ms09 rfl).1 (by rw [hpi]; exact List.cons_ne_nil 0 [])
    have hspec := selectAction_spec freshModel ms09 rfl
    have hw : (predict freshModel ms09).weights =
        actions.getD (selectAction freshModel ms09).action [] := by
      rw [predict_eq]
      exact hspec.2.2.1
    have hw0 : 0 < (predict freshModel ms09).weights.getD 0 0 := by
      rw [hw]
      exact actions_getD_pos _ 0 hspec.1 (by omega)
    rw [hs]
    unfold weightedNum weightedDen
    rw [hpi]
    simp only [List.map_cons, List.map_nil, List.sum_cons, List.sum_nil, add_zero]
    have hget : (ms09.get 0).getD 0 = 0.9 := rfl
    rw [hget]
    exact mul_div_cancel_left₀ 0.9 (ne_of_gt hw0)

/-- C8 counterexample: with all three signals absent the validity
filter inspects the RAW module scores (not the substituted context),
so the ML-heavy action (index 0) is invalid and its diagnostics entry
carries UCB ⊥ — refuting the claim that the default context makes
every action valid. -/
theorem claim8_counterexample :
    ((selectAction freshModel msAllNone).ucbValues.getD 0
        (UCBValue.mk 0 ⊥ 0 ⊥ true)).ucb = ⊥ := by
  have hf0 : isActionValid 0 msAllNone = false :=
    (isActionValid_false_iff 0 msAllNone).mpr ⟨0, by omega, rfl, by norm_num [actions]⟩
  rw [selectAction_eq freshModel msAllNone rfl]
  exact evalAction_invalid freshModel msAllNone (getContext msAllNone) 0 hf0

/-- C8 amended: the validity filter of `selectAction` looks at the raw
module scores, not at the substituted default context; when all three
signals are absent, actions 0–3 each put weight ≥ 0.5 on an absent
signal, are invalid and receive UCB ⊥, and only the Balanced action
(index 4) is valid — so it is the selected action. -/
theorem claim8_amended (st : LinUCB) (h5 : st.nActions = 5) :
    isActionValid 0 msAllNone = false ∧ isActionValid 1 msAllNone = false
    ∧ isActionValid 2 msAllNone = false ∧ isActionValid 3 msAllNone = false
    ∧ isActionValid 4 msAllNone = true
    ∧ (∀ rec ∈ (selectAction st msAllNone).ucbValues, rec.action ≠ 4 → rec.ucb = ⊥)
    ∧ (selectAction st msAllNone).action = 4 := by
  have hf : ∀ k, k < 4 → isActionValid k msAllNone = false := by
    intro k hk
    rw [isActionValid_false_iff]
    interval_cases k
    · exact ⟨0, by omega, rfl, by norm_num [actions]⟩
    · exact ⟨1, by omega, rfl, by norm_num [actions]⟩
    · exact ⟨2, by omega, rfl, by norm_num [actions]⟩
    · exact ⟨0, by omega, rfl, by norm_num [actions]⟩
  have hspec := selectAction_spec st msAllNone h5
  have hsel4 : (selectAction st msAllNone).action = 4 := by
    have h5a := hspec.1
    have hv := hspec.2.1
    set k := (selectAction st msAllNone).action with hkdef
    interval_cases k
    · simp [hf 0 (by omega)] at hv
    · simp [hf 1 (by omega)] at hv
    · simp [hf 2 (by omega)] at hv
    · simp [hf 3 (by omega)] at hv
    · rfl
  refine ⟨hf 0 (by omega), hf 1 (by omega), hf 2 (by omega), hf 3 (by omega),
    balanced_valid msAllNone, ?_, hsel4⟩
  intro rec hrec hne
  rw [selectAction_eq st msAllNone h5] at hrec
  simp only [List.mem_cons, List.not_mem_nil, or_false] at hrec
  rcases hrec with h | h | h | h | h
  · rw [h]; exact evalAction_invalid _ _ _ 0 (hf 0 (by omega))
  · rw [h]; exact evalAction_invalid _ _ _ 1 (hf 1 (by omega))
  · rw [h]; exact evalAction_invalid _ _ _ 2 (hf 2 (by omega))
  · rw [h]; exact evalAction_invalid _ _ _ 3 (hf 3 (by omega))
  · exact absurd (by rw [h]; exact evalAction_action st msAllNone (getContext msAllNone) 4) hne

/-- Witness for C8 (amended) on a fresh model: the Balanced action is
the one selected when every signal is absent. -/
theorem claim8_witness : (selectAction freshModel msAllNone).action = 4 :=
  (claim8_amended freshModel rfl).2.2.2.2.2.2

/-- C10: in the background auto-analysis path an absent visual or
offPage signal is replaced by the NUMBER 0 before `predict` is called,
so the validity filter sees all three signals as present (no action is
invalidated) and the fused weighted average includes 0 for the missing
signal instead of excluding it. -/
theorem claim10_background_path (st : LinUCB) (h5 : st.nActions = 5)
    (onP : ℝ) (vis off : Option ℝ) :
    (∀ a, isActionValid a (analysisScores onP vis off) = true)
    ∧ (predict st (analysisScores onP vis off)).score =
        ((predict st (analysisScores onP vis off)).weights.getD 0 0 * onP
          + (predict st (analysisScores onP vis off)).weights.getD 1 0 * vis.getD 0
          + (predict st (analysisScores onP vis off)).weights.getD 2 0 * off.getD 0)
        / ((predict st (analysisScores onP vis off)).weights.getD 0 0
            + (predict st (analysisScores onP vis off)).weights.getD 1 0
            + (predict st (analysisScores onP vis off)).weights.getD 2 0) := by
  have hpi : presentIdx (analysisScores onP vis off) = [0, 1, 2] := by
    simp [presentIdx, analysisScores, ModuleScores.get]
  constructor
  · intro a
    rw [isActionValid_true_iff]
    intro i hi hnone
    interval_cases i <;> simp [analysisScores, ModuleScores.get] at hnone
  · have hs := (predict_score st (analysisScores onP vis off) h5).1 (by rw [hpi]; simp)
    rw [hs]
    unfold weightedNum weightedDen
    rw [hpi]
    simp only [List.map_cons, List.map_nil, List.sum_cons, List.sum_nil, add_zero]
    have h0 : ((analysisScores onP vis off).get 0).getD 0 = onP := rfl
    have h1 : ((analysisScores onP vis off).get 1).getD 0 = vis.getD 0 := rfl
    have h2 : ((analysisScores onP vis off).get 2).getD 0 = off.getD 0 := rfl
    rw [h0, h1, h2]
    congr 1 <;> ring

/-- Witness for C10: background path with visual absent and
offPage = 0.5 on a fresh model — the fused average runs over all three
slots, with 0 standing in for the absent visual signal. -/
theorem claim10_witness :
    (predict freshModel (analysisScores 0.9 none (some 0.5))).score =
        ((predict freshModel (analysisScores 0.9 none (some 0.5))).weights.getD 0 0 * 0.9
          + (predict freshModel (analysisScores 0.9 none (some 0.5))).weights.getD 1 0 *
              (Option.getD none 0)
          + (predict freshModel (analysisScores 0.9 none (some 0.5))).weights.getD 2 0 *
              (Option.getD (some 0.5) 0))
        / ((predict freshModel (analysisScores 0.9 none (some 0.5))).weights.getD 0 0
            + (predict freshModel (analysisScores 0.9 none (some 0.5))).weights.getD 1 0
            + (predict freshModel (analysisScores 0.9 none (some 0.5))).weights.getD 2 0) :=
  (claim10_background_path freshModel rfl 0.9 none (some 0.5)).2

lemma getD_set_self {α : Type _} (l : List α) (n : ℕ) (x d : α) (h : n < l.length) :
    (l.set n x).getD n d = x := by
  rw [List.getD_eq_getElem _ _ (by simpa using h)]
  simp

lemma getD_mem {α : Type _} (l : List α) (i : ℕ) (d : α) (h : i < l.length) :
    l.getD i d ∈ l := by
  rw [List.getD_eq_getElem _ _ h]
  exact List.getElem_mem h

lemma createIdentityMatrix_length (n : ℕ) : (createIdentityMatrix n).length = n := by
  simp [createIdentityMatrix]

lemma createIdentityMatrix_row_length (n : ℕ) :
    ∀ row ∈ createIdentityMatrix n, row.length = n := by
  intro row h
  simp only [createIdentityMatrix, List.mem_map] at h
  obtain ⟨i, _, rfl⟩ := h
  simp

/-- C4: `update` adds the outer product of the context to the chosen
action's design matrix (entrywise), adds reward·context to its
response vector (entrywise), and increments the trial counter by
exactly one; consequently, after any sequence of n update calls on a
fresh model, the trial counter equals n. -/
theorem claim4_update (st : LinUCB) (a : ℕ) (ctx : Vec) (r : ℝ)
    (ha : a < st.A.length) (hb : a < st.b.length)
    (hf4 : st.nFeatures = 4) (hctx : ctx.length = 4)
    (hA4 : (st.A.getD a []).length = 4)
    (hrows : ∀ row ∈ st.A.getD a [], row.length = 4) :
    (∀ i j, i < 4 → j < 4 →
      (((st.update a ctx r).A.getD a []).getD i []).getD j 0
        = ((st.A.getD a []).getD i []).getD j 0 + ctx.getD i 0 * ctx.getD j 0)
    ∧ (∀ i, i < 4 →
      ((st.update a ctx r).b.getD a []).getD i 0
        = (st.b.getD a []).getD i 0 + r * ctx.getD i 0)
    ∧ (st.update a ctx r).totalTrials = st.totalTrials + 1
    ∧ ∀ us : List (ℕ × Vec × ℝ),
        (us.foldl (fun s u => s.update u.1 u.2.1 u.2.2) freshModel).totalTrials
          = us.length := by
  refine ⟨?_, ?_, rfl, ?_⟩
  · intro i j hi hj
    have hAeq : (st.update a ctx r).A
        = st.A.set a (matAdd (st.A.getD a []) (outerProduct ctx)) := rfl
    rw [hAeq, getD_set_self _ _ _ _ ha]
    unfold matAdd
    rw [getD_range_map _ _ i _ (by rw [hA4]; omega)]
    have hrowlen : ((st.A.getD a []).getD i []).length = 4 :=
      hrows _ (getD_mem _ i _ (by rw [hA4]; omega))
    rw [getD_range_map _ _ j _ (by rw [hrowlen]; omega)]
    congr 1
    unfold outerProduct
    rw [getD_range_map _ _ i _ (by rw [hctx]; omega)]
    rw [getD_range_map _ _ j _ (by rw [hctx]; omega)]
  · intro i hi
    have hBeq : (st.update a ctx r).b
        = st.b.set a ((List.range st.nFeatures).map fun k =>
            (st.b.getD a []).getD k 0 + r * ctx.getD k 0) := rfl
    rw [hBeq, getD_set_self _ _ _ _ hb, hf4]
    rw [getD_range_map _ _ i _ (by omega)]
  · intro us
    have haux : ∀ (l : List (ℕ × Vec × ℝ)) (s : LinUCB),
        (l.foldl (fun s u => s.update u.1 u.2.1 u.2.2) s).totalTrials
          = s.totalTrials + l.length := by
      intro l
      induction l with
      | nil => intro s; simp
      | cons u rest ih =>
        intro s
        rw [List.foldl_cons, ih]
        simp [LinUCB.update]
        omega
    rw [haux]
    show 0 + us.length = us.length
    omega

/-- Witness for C4: one update on a fresh model bumps the trial
counter from 0 to 1. -/
theorem claim4_witness :
    (freshModel.update 0 [1, 2, 3, 4] 1).totalTrials = freshModel.totalTrials + 1 :=
  (claim4_update freshModel 0 [1, 2, 3, 4] 1
    (by simp [freshModel, LinUCB.init]) (by simp [freshModel, LinUCB.init]) rfl rfl
    (by rw [show freshModel.A = (List.range 5).map (fun _ => createIdentityMatrix 4) from rfl,
          getD_range_map _ 5 0 _ (by omega)]
        exact createIdentityMatrix_length 4)
    (by rw [show freshModel.A = (List.range 5).map (fun _ => createIdentityMatrix 4) from rfl,
          getD_range_map _ 5 0 _ (by omega)]
        exact createIdentityMatrix_row_length 4)).2.2.1

/-- C6: for every 4×4 input matrix `matInverse` is total (it always
returns a matrix — either the identity fallback or the extracted
right half of the eliminated augmented matrix, never an exception);
whenever the Gauss–Jordan elimination encounters a pivot of magnitude
below 1e-10 (i.e. `elimAll` bails out with `none`), the result is the
4×4 identity matrix. -/
theorem claim6_matInverse (M : Mat) (h4 : M.length = 4) :
    (elimAll (augment M) (List.range 4) = none →
      matInverse M = createIdentityMatrix 4)
    ∧ ∀ aug, elimAll (augment M) (List.range 4) = some aug →
        matInverse M = aug.map fun row => row.drop 4 := by
  simp only [matInverse, h4]
  constructor
  · intro hnone
    rw [hnone]
  · intro aug hsome
    rw [hsome]

/-- Witness for C6: on the 4×4 zero matrix the very first pivot is 0,
so the inversion falls back to the identity matrix. -/
theorem claim6_witness : matInverse zeroMat4 = createIdentityMatrix 4 := by
  apply (claim6_matInverse zeroMat4 rfl).1
  have haug : augment zeroMat4 =
      ([[0, 0, 0, 0, 1, 0, 0, 0], [0, 0, 0, 0, 0, 1, 0, 0],
        [0, 0, 0, 0, 0, 0, 1, 0], [0, 0, 0, 0, 0, 0, 0, 1]] : Mat) := by
    rfl
  have hfind : findMaxRow
      ([[0, 0, 0, 0, 1, 0, 0, 0], [0, 0, 0, 0, 0, 1, 0, 0],
        [0, 0, 0, 0, 0, 0, 1, 0], [0, 0, 0, 0, 0, 0, 0, 1]] : Mat) 0 = 0 := by
    simp [findMaxRow, List.range', List.getD]
  have hswap : swapRows
      ([[0, 0, 0, 0, 1, 0, 0, 0], [0, 0, 0, 0, 0, 1, 0, 0],
        [0, 0, 0, 0, 0, 0, 1, 0], [0, 0, 0, 0, 0, 0, 0, 1]] : Mat) 0 0 =
      ([[0, 0, 0, 0, 1, 0, 0, 0], [0, 0, 0, 0, 0, 1, 0, 0],
        [0, 0, 0, 0, 0, 0, 1, 0], [0, 0, 0, 0, 0, 0, 0, 1]] : Mat) := by
    simp [swapRows, List.range_succ, List.getD]
  have hstep : elimStep
      ([[0, 0, 0, 0, 1, 0, 0, 0], [0, 0, 0, 0, 0, 1, 0, 0],
        [0, 0, 0, 0, 0, 0, 1, 0], [0, 0, 0, 0, 0, 0, 0, 1]] : Mat) 0 = none := by
    simp only [elimStep]
    rw [hfind, hswap]
    rw [if_pos (by norm_num [List.getD])]
  have hr : List.range 4 = [0, 1, 2, 3] := by decide
  rw [hr, haug]
  simp [elimAll, hstep]

end SpareExt
